import Mathlib

/-!
Verification development for the `RadiomicsShape` feature class
(`radiomics/shape.py`): shape descriptors of a 3D binary ROI mask.

The mask is embedded as a shape-indexed boolean array, the voxel spacing as a
triple of reals, and each method of the class as a function of the explicit
object state (padded mask array plus spacing).  Integer-valued face counts are
kept in `ℕ`/`ℤ` so that they are executable; the real-valued feature formulas
are stated over `ℝ` (modelling the ideal value of the floating-point
computation).  A small IEEE-style value type `RFloat` is used for the claims
about non-finite (NaN/inf) results.
-/

open Finset

/-- A 3-dimensional array of booleans, index order `(z, y, x)` i.e. `(k, j, i)`
with `k < D`, `j < H`, `i < W`.  Values outside the declared bounds are
irrelevant: every computation below only reads indices inside the bounds. -/
structure Mask3 where
  D : ℕ
  H : ℕ
  W : ℕ
  val : ℕ → ℕ → ℕ → Bool

/-- Physical voxel spacing, tuple order `(x, y, z)` as delivered by
`inputImage.GetSpacing()`. -/
structure Spacing where
  x : ℝ
  y : ℝ
  z : ℝ

/-- A mask value as an integer, as numpy stores a binary mask (0 or 1). -/
def b2i (b : Bool) : ℤ := if b then 1 else 0

/-- `ConstantPadImageFilter` with lower and upper pad bound 1 on every axis:
the array grows by 2 in every dimension and the original voxel `(k,j,i)`
moves to `(k+1, j+1, i+1)`; every new voxel is background (`false`). -/
def pad (m : Mask3) : Mask3 :=
  ⟨m.D + 2, m.H + 2, m.W + 2, fun k j i =>
    if 1 ≤ k ∧ k ≤ m.D ∧ 1 ≤ j ∧ j ≤ m.H ∧ 1 ≤ i ∧ i ≤ m.W then
      m.val (k - 1) (j - 1) (i - 1)
    else false⟩

/-- The set of in-bounds index triples carrying a `true` voxel. -/
def trueVoxels (m : Mask3) : Finset (ℕ × ℕ × ℕ) :=
  ((Finset.range m.D ×ˢ Finset.range m.H ×ˢ Finset.range m.W).filter
    (fun p => m.val p.1 p.2.1 p.2.2 = true))

/-- Modelled from the spec: the number of voxels inside the ROI
(`self.targetVoxelArray.size`; `targetVoxelArray`, defined in the base class
`RadiomicsFeaturesBase` which is not part of the source tree, holds the image
values of the nonzero-mask voxels, so its size is the count of true mask
voxels). -/
def numTrue (m : Mask3) : ℕ := (trueVoxels m).card

/-- The multiset of all in-bounds voxel values of a mask: two masks of the same
shape are a permutation of one another's voxel storage precisely when these
multisets agree. -/
def valsMultiset (m : Mask3) : Multiset Bool :=
  (Finset.range m.D ×ˢ Finset.range m.H ×ˢ Finset.range m.W).val.map
    (fun p => m.val p.1 p.2.1 p.2.2)

/-- `numpy.sum(numpy.abs(a[1:] - a[:-1]))` for one line `v` of the array:
the sum of absolute differences of adjacent entries over the `n` overlapping
positions (for a line of length `n + 1`). -/
def lineAbsDiff (v : ℕ → Bool) (n : ℕ) : ℕ :=
  ∑ i ∈ Finset.range n, (b2i (v (i + 1)) - b2i (v i)).natAbs

/-- The count of adjacent positions along one line whose mask values differ. -/
def lineDiff (v : ℕ → Bool) (n : ℕ) : ℕ :=
  ∑ i ∈ Finset.range n, (if v i = v (i + 1) then 0 else 1)

/-- `surf_x = numpy.sum(numpy.abs(maskArray[:,:,1:] - maskArray[:,:,:-1]))`:
absolute adjacent differences along the last (x) index. -/
def surfX (m : Mask3) : ℕ :=
  ∑ k ∈ Finset.range m.D, ∑ j ∈ Finset.range m.H,
    ∑ i ∈ Finset.range (m.W - 1), (b2i (m.val k j (i + 1)) - b2i (m.val k j i)).natAbs

/-- `surf_y = numpy.sum(numpy.abs(maskArray[:,1:,:] - maskArray[:,:-1,:]))`. -/
def surfY (m : Mask3) : ℕ :=
  ∑ k ∈ Finset.range m.D, ∑ j ∈ Finset.range (m.H - 1),
    ∑ i ∈ Finset.range m.W, (b2i (m.val k (j + 1) i) - b2i (m.val k j i)).natAbs

/-- `surf_z = numpy.sum(numpy.abs(maskArray[1:,:,:] - maskArray[:-1,:,:]))`. -/
def surfZ (m : Mask3) : ℕ :=
  ∑ k ∈ Finset.range (m.D - 1), ∑ j ∈ Finset.range m.H,
    ∑ i ∈ Finset.range m.W, (b2i (m.val (k + 1) j i) - b2i (m.val k j i)).natAbs

/-- The count of adjacent-voxel pairs differing along the x axis, organised as
a sum of per-line counts. -/
def diffCountX (m : Mask3) : ℕ :=
  ∑ k ∈ Finset.range m.D, ∑ j ∈ Finset.range m.H,
    lineDiff (fun i => m.val k j i) (m.W - 1)

/-- The count of adjacent-voxel pairs differing along the y axis. -/
def diffCountY (m : Mask3) : ℕ :=
  ∑ k ∈ Finset.range m.D, ∑ i ∈ Finset.range m.W,
    lineDiff (fun j => m.val k j i) (m.H - 1)

/-- The count of adjacent-voxel pairs differing along the z axis. -/
def diffCountZ (m : Mask3) : ℕ :=
  ∑ j ∈ Finset.range m.H, ∑ i ∈ Finset.range m.W,
    lineDiff (fun k => m.val k j i) (m.D - 1)

/-- The state of a `RadiomicsShape` object after `__init__`: the (padded) mask
array `self.maskArray` and the spacing `self.pixelSpacing`. -/
structure RadiomicsShape where
  maskArray : Mask3
  pixelSpacing : Spacing

/-- `RadiomicsShape.__init__`: pads the input mask by one background voxel on
every face and stores it together with the spacing. -/
def RadiomicsShape.ofMask (inputMask : Mask3) (spacing : Spacing) : RadiomicsShape :=
  ⟨pad inputMask, spacing⟩

/-- `self.cubicMMPerVoxel = reduce(lambda x,y: x*y, self.pixelSpacing)`. -/
def RadiomicsShape.cubicMMPerVoxel (r : RadiomicsShape) : ℝ :=
  r.pixelSpacing.x * r.pixelSpacing.y * r.pixelSpacing.z

/-- `getVolumeFeatureValue`: `self.targetVoxelArray.size * self.cubicMMPerVoxel`. -/
noncomputable def RadiomicsShape.getVolumeFeatureValue (r : RadiomicsShape) : ℝ :=
  (numTrue r.maskArray : ℝ) * r.cubicMMPerVoxel

/-- `getSurfaceAreaFeatureValue`:
`surf_x * yz + surf_y * xz + surf_z * xy` with `x, y, z = self.pixelSpacing`. -/
noncomputable def RadiomicsShape.getSurfaceAreaFeatureValue (r : RadiomicsShape) : ℝ :=
  (surfX r.maskArray : ℝ) * (r.pixelSpacing.y * r.pixelSpacing.z) +
    (surfY r.maskArray : ℝ) * (r.pixelSpacing.x * r.pixelSpacing.z) +
    (surfZ r.maskArray : ℝ) * (r.pixelSpacing.x * r.pixelSpacing.y)

/-- The cached `self.Volume`, pre-calculated in `__init__`. -/
noncomputable def RadiomicsShape.Volume (r : RadiomicsShape) : ℝ :=
  r.getVolumeFeatureValue

/-- The cached `self.SurfaceArea`, pre-calculated in `__init__`. -/
noncomputable def RadiomicsShape.SurfaceArea (r : RadiomicsShape) : ℝ :=
  r.getSurfaceAreaFeatureValue

/-- `getSurfaceVolumeRatioFeatureValue`: `self.SurfaceArea / self.Volume`. -/
noncomputable def RadiomicsShape.getSurfaceVolumeRatioFeatureValue (r : RadiomicsShape) : ℝ :=
  r.SurfaceArea / r.Volume

/-- `getCompactness1FeatureValue`:
`self.Volume / (self.SurfaceArea**(2.0/3.0) * numpy.sqrt(numpy.pi))`. -/
noncomputable def RadiomicsShape.getCompactness1FeatureValue (r : RadiomicsShape) : ℝ :=
  r.Volume / (r.SurfaceArea ^ ((2 : ℝ) / 3) * Real.sqrt Real.pi)

/-- `getCompactness2FeatureValue`:
`(36.0 * numpy.pi) * self.Volume**2.0 / self.SurfaceArea**3.0`
(`x**2.0 = x^2` and `x**3.0 = x^3` exactly, `Real.rpow_natCast`). -/
noncomputable def RadiomicsShape.getCompactness2FeatureValue (r : RadiomicsShape) : ℝ :=
  (36 * Real.pi) * r.Volume ^ 2 / r.SurfaceArea ^ 3

/-- `getSphericalDisproportionFeatureValue`:
`R = (3*Volume/(4*pi))**(1/3); SurfaceArea / (4*pi*R**2.0)`. -/
noncomputable def RadiomicsShape.getSphericalDisproportionFeatureValue (r : RadiomicsShape) : ℝ :=
  r.SurfaceArea / (4 * Real.pi * (((3 * r.Volume) / (4 * Real.pi)) ^ ((1 : ℝ) / 3)) ^ 2)

/-- `getSphericityFeatureValue`:
`(pi**(1/3) * (6*Volume)**(2/3)) / SurfaceArea`. -/
noncomputable def RadiomicsShape.getSphericityFeatureValue (r : RadiomicsShape) : ℝ :=
  (Real.pi ^ ((1 : ℝ) / 3) * (6 * r.Volume) ^ ((2 : ℝ) / 3)) / r.SurfaceArea

/-- The 3×3×3 all-true mask of the spec's end-to-end example. -/
def cube3 : Mask3 := ⟨3, 3, 3, fun _ _ _ => true⟩

/-- The example object: 3×3×3 all-true mask, spacing `(1,1,1)`. -/
noncomputable def cubeShape : RadiomicsShape := RadiomicsShape.ofMask cube3 ⟨1, 1, 1⟩

lemma natAbs_b2i_sub (a b : Bool) : (b2i a - b2i b).natAbs = if b = a then 0 else 1 := by
  cases a <;> cases b <;> rfl

lemma surfX_eq_diffCountX (m : Mask3) : surfX m = diffCountX m := by
  unfold surfX diffCountX lineDiff
  refine Finset.sum_congr rfl fun k _ => Finset.sum_congr rfl fun j _ => ?_
  exact Finset.sum_congr rfl fun i _ => natAbs_b2i_sub _ _

lemma surfY_eq_diffCountY (m : Mask3) : surfY m = diffCountY m := by
  unfold surfY diffCountY lineDiff
  refine Finset.sum_congr rfl fun k _ => ?_
  rw [Finset.sum_comm]
  refine Finset.sum_congr rfl fun i _ => ?_
  exact Finset.sum_congr rfl fun j _ => natAbs_b2i_sub _ _

lemma surfZ_eq_diffCountZ (m : Mask3) : surfZ m = diffCountZ m := by
  unfold surfZ diffCountZ lineDiff
  rw [Finset.sum_comm]
  refine Finset.sum_congr rfl fun j _ => ?_
  rw [Finset.sum_comm]
  refine Finset.sum_congr rfl fun i _ => ?_
  exact Finset.sum_congr rfl fun k _ => natAbs_b2i_sub _ _

/-- **C1.** For every 3D binary mask (the object's mask array) and spacing
`(sx, sy, sz)`, `getSurfaceAreaFeatureValue` returns the sum over the three
axes of the count of adjacent-voxel pairs whose mask values differ along that
axis (the summed absolute difference of the array and its one-index shift over
the `N-1` overlapping positions), the x-direction count weighted by `sy*sz`,
the y-direction count by `sx*sz` and the z-direction count by `sx*sy`. -/
theorem surfaceArea_eq_weighted_diff_counts (a : Mask3) (s : Spacing) :
    (RadiomicsShape.mk a s).getSurfaceAreaFeatureValue =
      (diffCountX a : ℝ) * (s.y * s.z) + (diffCountY a : ℝ) * (s.x * s.z) +
        (diffCountZ a : ℝ) * (s.x * s.y) := by
  unfold RadiomicsShape.getSurfaceAreaFeatureValue
  rw [surfX_eq_diffCountX, surfY_eq_diffCountY, surfZ_eq_diffCountZ]

lemma numTrue_pad_cube3 : numTrue (pad cube3) = 27 := by decide

lemma surfX_pad_cube3 : surfX (pad cube3) = 18 := by decide

lemma surfY_pad_cube3 : surfY (pad cube3) = 18 := by decide

lemma surfZ_pad_cube3 : surfZ (pad cube3) = 18 := by decide

lemma cubeShape_Volume : cubeShape.Volume = 27 := by
  show (numTrue (pad cube3) : ℝ) * (1 * 1 * 1) = 27
  rw [numTrue_pad_cube3]; norm_num

lemma cubeShape_SurfaceArea : cubeShape.SurfaceArea = 54 := by
  show (surfX (pad cube3) : ℝ) * (1 * 1) + (surfY (pad cube3) : ℝ) * (1 * 1) +
      (surfZ (pad cube3) : ℝ) * (1 * 1) = 54
  rw [surfX_pad_cube3, surfY_pad_cube3, surfZ_pad_cube3]; norm_num

/-- **C2.** For the 3×3×3 all-true mask with spacing `(1,1,1)` (padded to
5×5×5 with the 3×3×3 centre true), `getVolumeFeatureValue` returns 27,
`getSurfaceAreaFeatureValue` returns 54, `getSurfaceVolumeRatioFeatureValue`
returns 2.0, and Compactness2 equals `36*pi*27^2/54^3`. -/
theorem cube_example_values :
    cubeShape.getVolumeFeatureValue = 27 ∧
      cubeShape.getSurfaceAreaFeatureValue = 54 ∧
        cubeShape.getSurfaceVolumeRatioFeatureValue = 2 ∧
          cubeShape.getCompactness2FeatureValue = 36 * Real.pi * 27 ^ 2 / 54 ^ 3 := by
  have hV : cubeShape.Volume = 27 := cubeShape_Volume
  have hA : cubeShape.SurfaceArea = 54 := cubeShape_SurfaceArea
  refine ⟨hV, hA, ?_, ?_⟩
  · unfold RadiomicsShape.getSurfaceVolumeRatioFeatureValue
    rw [hV, hA]; norm_num
  · unfold RadiomicsShape.getCompactness2FeatureValue
    rw [hV, hA]

lemma pad_val_eq (m : Mask3) (k j i : ℕ) :
    (pad m).val k j i =
      if 1 ≤ k ∧ k ≤ m.D ∧ 1 ≤ j ∧ j ≤ m.H ∧ 1 ≤ i ∧ i ≤ m.W then
        m.val (k - 1) (j - 1) (i - 1)
      else false := rfl

lemma pad_val_x0 (m : Mask3) (k j : ℕ) : (pad m).val k j 0 = false := by
  rw [pad_val_eq]
  have h : ¬(1 ≤ k ∧ k ≤ m.D ∧ 1 ≤ j ∧ j ≤ m.H ∧ 1 ≤ 0 ∧ 0 ≤ m.W) := by omega
  rw [if_neg h]

lemma pad_val_xW (m : Mask3) (k j : ℕ) : (pad m).val k j (m.W + 1) = false := by
  rw [pad_val_eq]
  have h : ¬(1 ≤ k ∧ k ≤ m.D ∧ 1 ≤ j ∧ j ≤ m.H ∧ 1 ≤ m.W + 1 ∧ m.W + 1 ≤ m.W) := by omega
  rw [if_neg h]

lemma pad_val_y0 (m : Mask3) (k i : ℕ) : (pad m).val k 0 i = false := by
  rw [pad_val_eq]
  have h : ¬(1 ≤ k ∧ k ≤ m.D ∧ 1 ≤ 0 ∧ 0 ≤ m.H ∧ 1 ≤ i ∧ i ≤ m.W) := by omega
  rw [if_neg h]

lemma pad_val_yH (m : Mask3) (k i : ℕ) : (pad m).val k (m.H + 1) i = false := by
  rw [pad_val_eq]
  have h : ¬(1 ≤ k ∧ k ≤ m.D ∧ 1 ≤ m.H + 1 ∧ m.H + 1 ≤ m.H ∧ 1 ≤ i ∧ i ≤ m.W) := by omega
  rw [if_neg h]

lemma pad_val_z0 (m : Mask3) (j i : ℕ) : (pad m).val 0 j i = false := by
  rw [pad_val_eq]
  have h : ¬(1 ≤ 0 ∧ 0 ≤ m.D ∧ 1 ≤ j ∧ j ≤ m.H ∧ 1 ≤ i ∧ i ≤ m.W) := by omega
  rw [if_neg h]

lemma pad_val_zD (m : Mask3) (j i : ℕ) : (pad m).val (m.D + 1) j i = false := by
  rw [pad_val_eq]
  have h : ¬(1 ≤ m.D + 1 ∧ m.D + 1 ≤ m.D ∧ 1 ≤ j ∧ j ≤ m.H ∧ 1 ≤ i ∧ i ≤ m.W) := by omega
  rw [if_neg h]

lemma pad_val_interior (m : Mask3) {k j i : ℕ} (hk : k < m.D) (hj : j < m.H)
    (hi : i < m.W) : (pad m).val (k + 1) (j + 1) (i + 1) = m.val k j i := by
  rw [pad_val_eq]
  have h : 1 ≤ k + 1 ∧ k + 1 ≤ m.D ∧ 1 ≤ j + 1 ∧ j + 1 ≤ m.H ∧ 1 ≤ i + 1 ∧ i + 1 ≤ m.W := by
    omega
  rw [if_pos h]
  simp

/-- **C8.** For every input mask of shape `(D, H, W)` the padded mask has shape
`(D+2, H+2, W+2)` with a false one-voxel shell on every face, and every
adjacent-index access `i + 1` performed by the per-axis difference sums (whose
shifted index ranges over the first `N - 1` positions of an axis of length
`N`) stays strictly below the axis length. -/
theorem pad_shape_shell_and_bounds (m : Mask3) :
    ((pad m).D = m.D + 2 ∧ (pad m).H = m.H + 2 ∧ (pad m).W = m.W + 2) ∧
      ((∀ j i, (pad m).val 0 j i = false) ∧ (∀ j i, (pad m).val (m.D + 1) j i = false) ∧
        (∀ k i, (pad m).val k 0 i = false) ∧ (∀ k i, (pad m).val k (m.H + 1) i = false) ∧
        (∀ k j, (pad m).val k j 0 = false) ∧ (∀ k j, (pad m).val k j (m.W + 1) = false)) ∧
      ((∀ i ∈ Finset.range ((pad m).W - 1), i + 1 < (pad m).W) ∧
        (∀ j ∈ Finset.range ((pad m).H - 1), j + 1 < (pad m).H) ∧
        (∀ k ∈ Finset.range ((pad m).D - 1), k + 1 < (pad m).D)) := by
  refine ⟨⟨rfl, rfl, rfl⟩,
    ⟨fun j i => pad_val_z0 m j i, fun j i => pad_val_zD m j i,
      fun k i => pad_val_y0 m k i, fun k i => pad_val_yH m k i,
      fun k j => pad_val_x0 m k j, fun k j => pad_val_xW m k j⟩, ?_, ?_, ?_⟩
  · intro i hi
    rw [Finset.mem_range] at hi
    have hW : (pad m).W = m.W + 2 := rfl
    rw [hW] at hi ⊢
    omega
  · intro j hj
    rw [Finset.mem_range] at hj
    have hH : (pad m).H = m.H + 2 := rfl
    rw [hH] at hj ⊢
    omega
  · intro k hk
    rw [Finset.mem_range] at hk
    have hD : (pad m).D = m.D + 2 := rfl
    rw [hD] at hk ⊢
    omega

/-- Witness for C8 at the concrete 3×3×3 example mask. -/
theorem pad_shape_shell_and_bounds_witness :
    (pad cube3).D = cube3.D + 2 ∧ (pad cube3).val 0 2 2 = false ∧
      (1 : ℕ) + 1 < (pad cube3).W :=
  ⟨(pad_shape_shell_and_bounds cube3).1.1,
    (pad_shape_shell_and_bounds cube3).2.1.1 2 2,
    (pad_shape_shell_and_bounds cube3).2.2.1 1 (by decide)⟩

/-- Modelled from the spec: `self.matrixCoordinates`, the `(z, y, x)` integer
index triples where the (padded) mask is true (computed by the base class,
which is not part of the source tree, via `numpy.where` in row-major order;
`zip(*self.matrixCoordinates)` turns it into the list of triples `a`). -/
def matrixCoordinates (m : Mask3) : List (ℕ × ℕ × ℕ) :=
  (List.range m.D).flatMap (fun k =>
    (List.range m.H).flatMap (fun j =>
      (List.range m.W).filterMap (fun i =>
        if m.val k j i then some (k, j, i) else none)))

/-- `numpy.min` of a coordinate array (nonempty whenever the ROI is
nonempty; the `[]` value is never exercised below). -/
def minList : List ℕ → ℕ
  | [] => 0
  | a :: t => t.foldl min a

/-- `numpy.max` of a coordinate array. -/
def maxList : List ℕ → ℕ
  | [] => 0
  | a :: t => t.foldl max a

/-- `minBounds = [min(coords[0]), min(coords[1]), min(coords[2])]`. -/
def minBounds (m : Mask3) : ℕ × ℕ × ℕ :=
  (minList ((matrixCoordinates m).map (fun p => p.1)),
    minList ((matrixCoordinates m).map (fun p => p.2.1)),
    minList ((matrixCoordinates m).map (fun p => p.2.2)))

/-- `maxBounds = [max(coords[0]), max(coords[1]), max(coords[2])]`. -/
def maxBounds (m : Mask3) : ℕ × ℕ × ℕ :=
  (maxList ((matrixCoordinates m).map (fun p => p.1)),
    maxList ((matrixCoordinates m).map (fun p => p.2.1)),
    maxList ((matrixCoordinates m).map (fun p => p.2.2)))

/-- Element-wise scaling of an index triple `(k, j, i)` by the spacing vector
`[z, y, x]` (the code's `* [z,y,x]`), converting index offsets to physical
millimetres. -/
def scaleCoord (s : Spacing) (p : ℕ × ℕ × ℕ) : ℝ × ℝ × ℝ :=
  ((p.1 : ℝ) * s.z, (p.2.1 : ℝ) * s.y, (p.2.2 : ℝ) * s.x)

/-- The rows of `a` whose z-, y- or x-index equals the respective minimum
bound, stacked in that order with duplicates retained (`numpy.vstack`). -/
def edgeVoxelsMinRaw (m : Mask3) : List (ℕ × ℕ × ℕ) :=
  (matrixCoordinates m).filter (fun p => p.1 = (minBounds m).1) ++
    (matrixCoordinates m).filter (fun p => p.2.1 = (minBounds m).2.1) ++
      (matrixCoordinates m).filter (fun p => p.2.2 = (minBounds m).2.2)

/-- The rows of `a` whose z-, y- or x-index equals the respective maximum
bound, stacked in that order with duplicates retained. -/
def edgeVoxelsMaxRaw (m : Mask3) : List (ℕ × ℕ × ℕ) :=
  (matrixCoordinates m).filter (fun p => p.1 = (maxBounds m).1) ++
    (matrixCoordinates m).filter (fun p => p.2.1 = (maxBounds m).2.1) ++
      (matrixCoordinates m).filter (fun p => p.2.2 = (maxBounds m).2.2)

/-- `edgeVoxelsMinCoords`: the minimum-bound edge voxels in scaled physical
coordinates. -/
noncomputable def edgeVoxelsMinCoords (m : Mask3) (s : Spacing) : List (ℝ × ℝ × ℝ) :=
  (edgeVoxelsMinRaw m).map (scaleCoord s)

/-- `edgeVoxelsMaxCoords`: the maximum-bound edge voxels in scaled physical
coordinates. -/
noncomputable def edgeVoxelsMaxCoords (m : Mask3) (s : Spacing) : List (ℝ × ℝ × ℝ) :=
  (edgeVoxelsMaxRaw m).map (scaleCoord s)

/-- One entry of `numpy.sqrt(numpy.sum((edgeVoxelsMinCoords - voxel1)**2, 1))`:
the Euclidean distance between two scaled coordinates. -/
noncomputable def voxelDistance (v2 voxel1 : ℝ × ℝ × ℝ) : ℝ :=
  Real.sqrt ((v2.1 - voxel1.1) ^ 2 + (v2.2.1 - voxel1.2.1) ^ 2 + (v2.2.2 - voxel1.2.2) ^ 2)

/-- `voxelDistances.max()` over the rows of `edgeVoxelsMinCoords` (all
distances are nonnegative, so for a nonempty row list the fold from 0 is
exactly the numpy maximum). -/
noncomputable def innerMaxDistance (L2 : List (ℝ × ℝ × ℝ)) (voxel1 : ℝ × ℝ × ℝ) : ℝ :=
  (L2.map (fun v2 => voxelDistance v2 voxel1)).foldl max 0

/-- One iteration of the diameter loop:
`if voxelDistances.max() > maxDiameter: maxDiameter = voxelDistances.max()`. -/
noncomputable def diamStep (L2 : List (ℝ × ℝ × ℝ)) (maxDiameter : ℝ)
    (voxel1 : ℝ × ℝ × ℝ) : ℝ :=
  if maxDiameter < innerMaxDistance L2 voxel1 then innerMaxDistance L2 voxel1 else maxDiameter

/-- `getMaximum3DDiameterFeatureValue`: the running maximum, initialized to 1,
of the pairwise distances between max-edge and min-edge voxels. -/
noncomputable def RadiomicsShape.getMaximum3DDiameterFeatureValue (r : RadiomicsShape) : ℝ :=
  (edgeVoxelsMaxCoords r.maskArray r.pixelSpacing).foldl
    (diamStep (edgeVoxelsMinCoords r.maskArray r.pixelSpacing)) 1

lemma seed_le_foldl_max (l : List ℝ) (a : ℝ) : a ≤ l.foldl max a := by
  induction l generalizing a with
  | nil => exact le_refl a
  | cons x t ih => exact le_trans (le_max_left a x) (ih (max a x))

lemma mem_le_foldl_max (l : List ℝ) (a : ℝ) {x : ℝ} (hx : x ∈ l) : x ≤ l.foldl max a := by
  induction l generalizing a with
  | nil => cases hx
  | cons y t ih =>
    rcases List.mem_cons.mp hx with h | h
    · subst h
      exact le_trans (le_max_right a x) (seed_le_foldl_max t (max a x))
    · exact ih (max a y) h

lemma foldl_max_le (l : List ℝ) (a M : ℝ) (ha : a ≤ M) (h : ∀ x ∈ l, x ≤ M) :
    l.foldl max a ≤ M := by
  induction l generalizing a with
  | nil => exact ha
  | cons y t ih =>
    refine ih (max a y) (max_le ha (h y (List.mem_cons_self y t))) ?_
    exact fun x hx => h x (List.mem_cons_of_mem y hx)

lemma foldl_max_lt (l : List ℝ) (a M : ℝ) (ha : a < M) (h : ∀ x ∈ l, x < M) :
    l.foldl max a < M := by
  induction l generalizing a with
  | nil => exact ha
  | cons y t ih =>
    refine ih (max a y) (max_lt ha (h y (List.mem_cons_self y t))) ?_
    exact fun x hx => h x (List.mem_cons_of_mem y hx)

lemma seed_le_diamFold (L1 : List (ℝ × ℝ × ℝ)) (L2 : List (ℝ × ℝ × ℝ)) (d : ℝ) :
    d ≤ L1.foldl (diamStep L2) d := by
  induction L1 generalizing d with
  | nil => exact le_refl d
  | cons v t ih =>
    refine le_trans ?_ (ih (diamStep L2 d v))
    unfold diamStep
    split
    · exact le_of_lt (by assumption)
    · exact le_refl d

lemma inner_le_diamFold (L1 : List (ℝ × ℝ × ℝ)) (L2 : List (ℝ × ℝ × ℝ)) (d : ℝ)
    {v1 : ℝ × ℝ × ℝ} (hv1 : v1 ∈ L1) :
    innerMaxDistance L2 v1 ≤ L1.foldl (diamStep L2) d := by
  induction L1 generalizing d with
  | nil => cases hv1
  | cons v t ih =>
    rcases List.mem_cons.mp hv1 with h | h
    · subst h
      refine le_trans ?_ (seed_le_diamFold t L2 (diamStep L2 d v1))
      unfold diamStep
      split
      · exact le_refl _
      · exact le_of_not_lt (by assumption)
    · exact ih (diamStep L2 d v) h

lemma diamFold_le (L1 : List (ℝ × ℝ × ℝ)) (L2 : List (ℝ × ℝ × ℝ)) (d M : ℝ) (hd : d ≤ M)
    (h : ∀ v1 ∈ L1, innerMaxDistance L2 v1 ≤ M) :
    L1.foldl (diamStep L2) d ≤ M := by
  induction L1 generalizing d with
  | nil => exact hd
  | cons v t ih =>
    refine ih (diamStep L2 d v) ?_ (fun x hx => h x (List.mem_cons_of_mem v hx))
    unfold diamStep
    split
    · exact h v (List.mem_cons_self v t)
    · exact hd

lemma diamFold_const (L1 L2 : List (ℝ × ℝ × ℝ)) (d : ℝ)
    (h : ∀ v1 ∈ L1, innerMaxDistance L2 v1 ≤ d) : L1.foldl (diamStep L2) d = d := by
  induction L1 with
  | nil => rfl
  | cons v t ih =>
    have hstep : diamStep L2 d v = d := by
      unfold diamStep
      rw [if_neg (not_lt.mpr (h v (List.mem_cons_self v t)))]
    rw [List.foldl_cons, hstep]
    exact ih (fun x hx => h x (List.mem_cons_of_mem v hx))

/-- **C6.** The running maximum of the diameter search is initialized to 1, so
for every non-empty ROI all of whose candidate pairwise (max-edge, min-edge)
physical distances are below 1, `getMaximum3DDiameterFeatureValue` returns the
floor 1 rather than the true smaller extent. -/
theorem diameter_floor_one (inputMask : Mask3) (s : Spacing)
    (hne : 0 < numTrue inputMask)
    (hsmall : ∀ v1 ∈ edgeVoxelsMaxCoords (pad inputMask) s,
      ∀ v2 ∈ edgeVoxelsMinCoords (pad inputMask) s, voxelDistance v2 v1 < 1) :
    (RadiomicsShape.ofMask inputMask s).getMaximum3DDiameterFeatureValue = 1 := by
  show (edgeVoxelsMaxCoords (pad inputMask) s).foldl
    (diamStep (edgeVoxelsMinCoords (pad inputMask) s)) 1 = 1
  refine diamFold_const _ _ 1 ?_
  intro v1 hv1
  unfold innerMaxDistance
  refine le_of_lt (foldl_max_lt _ 0 1 zero_lt_one ?_)
  intro x hx
  rcases List.mem_map.mp hx with ⟨v2, hv2, rfl⟩
  exact hsmall v1 hv1 v2 hv2

/-- A single-voxel input mask (its physical extent is below 1 mm for the
half-millimetre spacing used in the witness). -/
def single1 : Mask3 := ⟨1, 1, 1, fun _ _ _ => true⟩

/-- Half-millimetre spacing. -/
noncomputable def halfSpacing : Spacing := ⟨1 / 2, 1 / 2, 1 / 2⟩

/-- Witness for C6: the single-voxel ROI at half-millimetre spacing (every
candidate pairwise distance is 0) yields the floor value 1. -/
theorem diameter_floor_one_witness :
    (RadiomicsShape.ofMask single1 halfSpacing).getMaximum3DDiameterFeatureValue = 1 := by
  refine diameter_floor_one single1 halfSpacing (by decide) ?_
  intro v1 hv1 v2 hv2
  have hmax : edgeVoxelsMaxRaw (pad single1) = [(1, 1, 1), (1, 1, 1), (1, 1, 1)] := by decide
  have hmin : edgeVoxelsMinRaw (pad single1) = [(1, 1, 1), (1, 1, 1), (1, 1, 1)] := by decide
  rw [edgeVoxelsMaxCoords, hmax] at hv1
  rw [edgeVoxelsMinCoords, hmin] at hv2
  simp only [List.map_cons, List.map_nil, List.mem_cons, List.not_mem_nil, or_false] at hv1 hv2
  have hd : voxelDistance (scaleCoord halfSpacing (1, 1, 1))
      (scaleCoord halfSpacing (1, 1, 1)) < 1 := by
    unfold voxelDistance scaleCoord
    norm_num
  rcases hv1 with rfl | rfl | rfl <;> rcases hv2 with rfl | rfl | rfl <;> exact hd

/-- Integer squared distance between index triples. -/
def sqdistN (a b : ℕ × ℕ × ℕ) : ℤ :=
  ((a.1 : ℤ) - b.1) ^ 2 + ((a.2.1 : ℤ) - b.2.1) ^ 2 + ((a.2.2 : ℤ) - b.2.2) ^ 2

lemma voxelDistance_unit (u v : ℕ × ℕ × ℕ) :
    voxelDistance (scaleCoord ⟨1, 1, 1⟩ u) (scaleCoord ⟨1, 1, 1⟩ v) =
      Real.sqrt ((sqdistN u v : ℤ) : ℝ) := by
  show Real.sqrt (((u.1 : ℝ) * 1 - (v.1 : ℝ) * 1) ^ 2 + ((u.2.1 : ℝ) * 1 - (v.2.1 : ℝ) * 1) ^ 2 +
      ((u.2.2 : ℝ) * 1 - (v.2.2 : ℝ) * 1) ^ 2) = _
  unfold sqdistN
  congr 1
  push_cast
  ring

lemma cube_pairs_bound : ∀ u ∈ edgeVoxelsMaxRaw (pad cube3),
    ∀ v ∈ edgeVoxelsMinRaw (pad cube3), sqdistN v u ≤ 12 := by decide

/-- **C5.** For the 3×3×3 all-true mask with spacing `(1,1,1)`,
`getMaximum3DDiameterFeatureValue` returns `sqrt(2^2 + 2^2 + 2^2) = sqrt 12`,
the corner-to-corner physical distance of the cube (index extent 2 per axis). -/
theorem cube_diameter_sqrt12 :
    cubeShape.getMaximum3DDiameterFeatureValue = Real.sqrt (2 ^ 2 + 2 ^ 2 + 2 ^ 2) := by
  have h12 : ((2 : ℝ) ^ 2 + 2 ^ 2 + 2 ^ 2) = 12 := by norm_num
  rw [h12]
  show (edgeVoxelsMaxCoords (pad cube3) ⟨1, 1, 1⟩).foldl
    (diamStep (edgeVoxelsMinCoords (pad cube3) ⟨1, 1, 1⟩)) 1 = Real.sqrt 12
  have hd12 : voxelDistance (scaleCoord ⟨1, 1, 1⟩ (1, 1, 1)) (scaleCoord ⟨1, 1, 1⟩ (3, 3, 3)) =
      Real.sqrt 12 := by
    rw [voxelDistance_unit]
    have h : sqdistN (1, 1, 1) (3, 3, 3) = 12 := by decide
    rw [h]
    norm_num
  apply le_antisymm
  · refine diamFold_le _ _ 1 (Real.sqrt 12) ?_ ?_
    · rw [show (1 : ℝ) = Real.sqrt 1 from Real.sqrt_one.symm]
      exact Real.sqrt_le_sqrt (by norm_num)
    · intro v1 hv1
      unfold innerMaxDistance
      refine foldl_max_le _ 0 _ (Real.sqrt_nonneg 12) ?_
      intro x hx
      rcases List.mem_map.mp hx with ⟨v2, hv2, rfl⟩
      rcases List.mem_map.mp hv1 with ⟨u1, hu1, rfl⟩
      rcases List.mem_map.mp hv2 with ⟨u2, hu2, rfl⟩
      rw [voxelDistance_unit]
      refine Real.sqrt_le_sqrt ?_
      have h := cube_pairs_bound u1 hu1 u2 hu2
      exact_mod_cast h
  · have hmem1 : scaleCoord ⟨1, 1, 1⟩ (3, 3, 3) ∈ edgeVoxelsMaxCoords (pad cube3) ⟨1, 1, 1⟩ :=
      List.mem_map_of_mem _ (by decide)
    have hmem2 : voxelDistance (scaleCoord ⟨1, 1, 1⟩ (1, 1, 1))
        (scaleCoord ⟨1, 1, 1⟩ (3, 3, 3)) ∈
        (edgeVoxelsMinCoords (pad cube3) ⟨1, 1, 1⟩).map
          (fun v2 => voxelDistance v2 (scaleCoord ⟨1, 1, 1⟩ (3, 3, 3))) :=
      List.mem_map_of_mem _ (List.mem_map_of_mem _ (by decide))
    have hinner : Real.sqrt 12 ≤
        innerMaxDistance (edgeVoxelsMinCoords (pad cube3) ⟨1, 1, 1⟩)
          (scaleCoord ⟨1, 1, 1⟩ (3, 3, 3)) := by
      rw [← hd12]
      exact mem_le_foldl_max _ 0 hmem2
    exact le_trans hinner (inner_le_diamFold _ _ 1 hmem1)

lemma mem_trueVoxels_iff (m : Mask3) (p : ℕ × ℕ × ℕ) :
    p ∈ trueVoxels m ↔
      p.1 < m.D ∧ p.2.1 < m.H ∧ p.2.2 < m.W ∧ m.val p.1 p.2.1 p.2.2 = true := by
  unfold trueVoxels
  simp [Finset.mem_filter, Finset.mem_product, Finset.mem_range, and_assoc]

lemma pad_val_true_bounds {m : Mask3} {k j i : ℕ} (h : (pad m).val k j i = true) :
    1 ≤ k ∧ k ≤ m.D ∧ 1 ≤ j ∧ j ≤ m.H ∧ 1 ≤ i ∧ i ≤ m.W ∧
      m.val (k - 1) (j - 1) (i - 1) = true := by
  rw [pad_val_eq] at h
  by_cases hc : 1 ≤ k ∧ k ≤ m.D ∧ 1 ≤ j ∧ j ≤ m.H ∧ 1 ≤ i ∧ i ≤ m.W
  · rw [if_pos hc] at h
    exact ⟨hc.1, hc.2.1, hc.2.2.1, hc.2.2.2.1, hc.2.2.2.2.1, hc.2.2.2.2.2, h⟩
  · rw [if_neg hc] at h
    cases h

lemma mem_trueVoxels_pad_iff (m : Mask3) (p : ℕ × ℕ × ℕ) :
    p ∈ trueVoxels (pad m) ↔
      1 ≤ p.1 ∧ p.1 ≤ m.D ∧ 1 ≤ p.2.1 ∧ p.2.1 ≤ m.H ∧ 1 ≤ p.2.2 ∧ p.2.2 ≤ m.W ∧
        m.val (p.1 - 1) (p.2.1 - 1) (p.2.2 - 1) = true := by
  rw [mem_trueVoxels_iff]
  constructor
  · rintro ⟨_, _, _, hval⟩
    exact pad_val_true_bounds hval
  · rintro ⟨h1, h2, h3, h4, h5, h6, h7⟩
    have hD : (pad m).D = m.D + 2 := rfl
    have hH : (pad m).H = m.H + 2 := rfl
    have hW : (pad m).W = m.W + 2 := rfl
    refine ⟨by omega, by omega, by omega, ?_⟩
    rw [pad_val_eq, if_pos ⟨h1, h2, h3, h4, h5, h6⟩]
    exact h7

lemma numTrue_pad (m : Mask3) : numTrue (pad m) = numTrue m := by
  unfold numTrue
  refine Finset.card_nbij' (fun p => (p.1 - 1, p.2.1 - 1, p.2.2 - 1))
    (fun p => (p.1 + 1, p.2.1 + 1, p.2.2 + 1)) ?_ ?_ ?_ ?_
  · rintro ⟨a, b, c⟩ hp
    rw [mem_trueVoxels_pad_iff] at hp
    rw [mem_trueVoxels_iff]
    dsimp only at hp ⊢
    obtain ⟨h1, h2, h3, h4, h5, h6, h7⟩ := hp
    exact ⟨by omega, by omega, by omega, h7⟩
  · rintro ⟨a, b, c⟩ hp
    rw [mem_trueVoxels_iff] at hp
    rw [mem_trueVoxels_pad_iff]
    dsimp only at hp ⊢
    obtain ⟨h1, h2, h3, hval⟩ := hp
    refine ⟨by omega, by omega, by omega, by omega, by omega, by omega, ?_⟩
    simpa using hval
  · rintro ⟨a, b, c⟩ hp
    rw [mem_trueVoxels_pad_iff] at hp
    dsimp only at hp ⊢
    obtain ⟨h1, _, h3, _, h5, _, _⟩ := hp
    simp only [Prod.mk.injEq]
    refine ⟨by omega, by omega, by omega⟩
  · rintro ⟨a, b, c⟩ hp
    dsimp only
    simp only [Prod.mk.injEq]
    refine ⟨by omega, by omega, by omega⟩

lemma numTrue_eq_countP (m : Mask3) :
    numTrue m = Multiset.countP (fun b => b = true) (valsMultiset m) := by
  unfold numTrue trueVoxels valsMultiset
  rw [Multiset.countP_map]
  rfl

/-- The mask `[T, F, T]` along the x axis (shape 1×1×3). -/
def permMaskA : Mask3 := ⟨1, 1, 3, fun _ _ i => i == 0 || i == 2⟩

/-- The mask `[T, T, F]` along the x axis: a permutation of `permMaskA`'s
voxel storage. -/
def permMaskB : Mask3 := ⟨1, 1, 3, fun _ _ i => i == 0 || i == 1⟩

/-- Counterexample to C9: `permMaskB`'s storage is a permutation of
`permMaskA`'s (same shape, same multiset of voxel values), but
`getSurfaceAreaFeatureValue` differs (12 versus 10 at unit spacing), so
SurfaceArea is not invariant under permutations of the voxel storage order. -/
theorem surfaceArea_perm_counterexample :
    permMaskA.D = permMaskB.D ∧ permMaskA.H = permMaskB.H ∧ permMaskA.W = permMaskB.W ∧
      valsMultiset permMaskA = valsMultiset permMaskB ∧
      (RadiomicsShape.ofMask permMaskA ⟨1, 1, 1⟩).getSurfaceAreaFeatureValue ≠
        (RadiomicsShape.ofMask permMaskB ⟨1, 1, 1⟩).getSurfaceAreaFeatureValue := by
  refine ⟨rfl, rfl, rfl, by decide, ?_⟩
  have hxA : surfX (pad permMaskA) = 4 := by decide
  have hyA : surfY (pad permMaskA) = 4 := by decide
  have hzA : surfZ (pad permMaskA) = 4 := by decide
  have hxB : surfX (pad permMaskB) = 2 := by decide
  have hyB : surfY (pad permMaskB) = 4 := by decide
  have hzB : surfZ (pad permMaskB) = 4 := by decide
  show (surfX (pad permMaskA) : ℝ) * (1 * 1) + (surfY (pad permMaskA) : ℝ) * (1 * 1) +
      (surfZ (pad permMaskA) : ℝ) * (1 * 1) ≠
    (surfX (pad permMaskB) : ℝ) * (1 * 1) + (surfY (pad permMaskB) : ℝ) * (1 * 1) +
      (surfZ (pad permMaskB) : ℝ) * (1 * 1)
  rw [hxA, hyA, hzA, hxB, hyB, hzB]
  norm_num

/-- **C9 (amended).** Volume is invariant under every permutation of the voxel
storage order (two masks of the same shape whose voxel-value multisets agree
have equal `getVolumeFeatureValue`); SurfaceArea is not permutation-invariant
(see the counterexample). -/
theorem volume_perm_invariant (m1 m2 : Mask3) (s : Spacing)
    (hD : m1.D = m2.D) (hH : m1.H = m2.H) (hW : m1.W = m2.W)
    (hperm : valsMultiset m1 = valsMultiset m2) :
    (RadiomicsShape.ofMask m1 s).getVolumeFeatureValue =
      (RadiomicsShape.ofMask m2 s).getVolumeFeatureValue := by
  have hcount : numTrue m1 = numTrue m2 := by
    rw [numTrue_eq_countP, numTrue_eq_countP, hperm]
  show (numTrue (pad m1) : ℝ) * (s.x * s.y * s.z) = (numTrue (pad m2) : ℝ) * (s.x * s.y * s.z)
  rw [numTrue_pad, numTrue_pad, hcount]

/-- Witness for the amended C9 at the concrete permuted pair. -/
theorem volume_perm_invariant_witness :
    (RadiomicsShape.ofMask permMaskA ⟨1, 1, 1⟩).getVolumeFeatureValue =
      (RadiomicsShape.ofMask permMaskB ⟨1, 1, 1⟩).getVolumeFeatureValue :=
  volume_perm_invariant permMaskA permMaskB ⟨1, 1, 1⟩ rfl rfl rfl (by decide)

/-- A mask value as a `w`-bit unsigned integer (0 or 1). -/
def b2n (b : Bool) : ℕ := if b then 1 else 0

/-- One adjacent difference `next - prev` computed in `w`-bit unsigned
arithmetic followed by `numpy.abs` (the identity on unsigned integers):
`(next - prev) mod 2^w`, written with a borrow so that natural subtraction
cannot truncate. -/
def wrapDiff (w : ℕ) (prev next : Bool) : ℕ :=
  (b2n next + 2 ^ w - b2n prev) % 2 ^ w

/-- The per-line sum of `w`-bit wrapped adjacent differences. -/
def lineWrap (w : ℕ) (v : ℕ → Bool) (n : ℕ) : ℕ :=
  ∑ i ∈ Finset.range n, wrapDiff w (v i) (v (i + 1))

/-- `surf_x` computed on a mask stored with `w`-bit unsigned voxel values. -/
def surfXw (w : ℕ) (m : Mask3) : ℕ :=
  ∑ k ∈ Finset.range m.D, ∑ j ∈ Finset.range m.H,
    lineWrap w (fun i => m.val k j i) (m.W - 1)

/-- `surf_y` computed on a mask stored with `w`-bit unsigned voxel values. -/
def surfYw (w : ℕ) (m : Mask3) : ℕ :=
  ∑ k ∈ Finset.range m.D, ∑ i ∈ Finset.range m.W,
    lineWrap w (fun j => m.val k j i) (m.H - 1)

/-- `surf_z` computed on a mask stored with `w`-bit unsigned voxel values. -/
def surfZw (w : ℕ) (m : Mask3) : ℕ :=
  ∑ j ∈ Finset.range m.H, ∑ i ∈ Finset.range m.W,
    lineWrap w (fun k => m.val k j i) (m.D - 1)

/-- The number of false-to-true transitions along a line. -/
def riseCount (v : ℕ → Bool) (n : ℕ) : ℕ :=
  ∑ i ∈ Finset.range n, (if v i = false ∧ v (i + 1) = true then 1 else 0)

/-- The number of true-to-false transitions along a line. -/
def fallCount (v : ℕ → Bool) (n : ℕ) : ℕ :=
  ∑ i ∈ Finset.range n, (if v i = true ∧ v (i + 1) = false then 1 else 0)

lemma lineDiff_eq_rise_add_fall (v : ℕ → Bool) (n : ℕ) :
    lineDiff v n = riseCount v n + fallCount v n := by
  unfold lineDiff riseCount fallCount
  rw [← Finset.sum_add_distrib]
  refine Finset.sum_congr rfl fun i _ => ?_
  cases hvi : v i <;> cases hvj : v (i + 1) <;> simp [hvi, hvj]

lemma rise_eq_fall (v : ℕ → Bool) (n : ℕ) (h0 : v 0 = false) (hn : v n = false) :
    riseCount v n = fallCount v n := by
  have htel : ∑ i ∈ Finset.range n, (b2i (v (i + 1)) - b2i (v i)) = b2i (v n) - b2i (v 0) :=
    Finset.sum_range_sub (fun i => b2i (v i)) n
  rw [h0, hn, sub_self] at htel
  have hsplit : ∑ i ∈ Finset.range n, (b2i (v (i + 1)) - b2i (v i)) =
      (riseCount v n : ℤ) - (fallCount v n : ℤ) := by
    unfold riseCount fallCount
    push_cast
    rw [← Finset.sum_sub_distrib]
    refine Finset.sum_congr rfl fun i _ => ?_
    cases hvi : v i <;> cases hvj : v (i + 1) <;> simp [hvi, hvj, b2i]
  rw [hsplit] at htel
  omega

lemma wrapDiff_cases {w : ℕ} (hw : 1 ≤ w) (a b : Bool) :
    wrapDiff w a b =
      (if a = false ∧ b = true then 1 else 0) +
        (if a = true ∧ b = false then 1 else 0) * (2 ^ w - 1) := by
  have h2 : 2 ≤ 2 ^ w := by
    calc 2 = 2 ^ 1 := (pow_one 2).symm
      _ ≤ 2 ^ w := Nat.pow_le_pow_right (by norm_num) hw
  cases a <;> cases b
  · show (0 + 2 ^ w - 0) % 2 ^ w = _
    rw [Nat.zero_add, Nat.sub_zero, Nat.mod_self]
    norm_num
  · show (1 + 2 ^ w - 0) % 2 ^ w = _
    rw [Nat.sub_zero, Nat.add_mod_right, Nat.mod_eq_of_lt (by omega : 1 < 2 ^ w)]
    norm_num
  · show (0 + 2 ^ w - 1) % 2 ^ w = _
    rw [Nat.zero_add, Nat.mod_eq_of_lt (by omega : 2 ^ w - 1 < 2 ^ w)]
    norm_num
  · show (1 + 2 ^ w - 1) % 2 ^ w = _
    rw [Nat.add_sub_cancel_left, Nat.mod_self]
    norm_num

lemma lineWrap_eq (w : ℕ) (v : ℕ → Bool) (n : ℕ) (hw : 1 ≤ w) (h0 : v 0 = false)
    (hn : v n = false) : lineWrap w v n = 2 ^ (w - 1) * lineDiff v n := by
  have h1 : 1 ≤ 2 ^ w := Nat.one_le_two_pow
  have key : lineWrap w v n = riseCount v n + fallCount v n * (2 ^ w - 1) := by
    unfold lineWrap riseCount fallCount
    rw [Finset.sum_mul, ← Finset.sum_add_distrib]
    exact Finset.sum_congr rfl fun i _ => wrapDiff_cases hw (v i) (v (i + 1))
  rw [key, lineDiff_eq_rise_add_fall, rise_eq_fall v n h0 hn]
  have hmerge : fallCount v n + fallCount v n * (2 ^ w - 1) = fallCount v n * 2 ^ w := by
    calc fallCount v n + fallCount v n * (2 ^ w - 1)
        = fallCount v n * 1 + fallCount v n * (2 ^ w - 1) := by rw [mul_one]
      _ = fallCount v n * (1 + (2 ^ w - 1)) := (Nat.mul_add _ _ _).symm
      _ = fallCount v n * 2 ^ w := by
          have he : 1 + (2 ^ w - 1) = 2 ^ w := by omega
          rw [he]
  rw [hmerge]
  have hsplit : 2 ^ w = 2 ^ (w - 1) * 2 := by
    rw [← pow_succ]
    congr 1
    omega
  rw [hsplit]
  ring

lemma surfXw_pad (w : ℕ) (hw : 1 ≤ w) (m : Mask3) :
    surfXw w (pad m) = 2 ^ (w - 1) * diffCountX (pad m) := by
  unfold surfXw diffCountX
  rw [Finset.mul_sum]
  refine Finset.sum_congr rfl fun k _ => ?_
  rw [Finset.mul_sum]
  refine Finset.sum_congr rfl fun j _ => ?_
  exact lineWrap_eq w _ _ hw (pad_val_x0 m k j) (pad_val_xW m k j)

lemma surfYw_pad (w : ℕ) (hw : 1 ≤ w) (m : Mask3) :
    surfYw w (pad m) = 2 ^ (w - 1) * diffCountY (pad m) := by
  unfold surfYw diffCountY
  rw [Finset.mul_sum]
  refine Finset.sum_congr rfl fun k _ => ?_
  rw [Finset.mul_sum]
  refine Finset.sum_congr rfl fun i _ => ?_
  exact lineWrap_eq w _ _ hw (pad_val_y0 m k i) (pad_val_yH m k i)

lemma surfZw_pad (w : ℕ) (hw : 1 ≤ w) (m : Mask3) :
    surfZw w (pad m) = 2 ^ (w - 1) * diffCountZ (pad m) := by
  unfold surfZw diffCountZ
  rw [Finset.mul_sum]
  refine Finset.sum_congr rfl fun j _ => ?_
  rw [Finset.mul_sum]
  refine Finset.sum_congr rfl fun i _ => ?_
  exact lineWrap_eq w _ _ hw (pad_val_z0 m j i) (pad_val_zD m j i)

/-- Counterexample to C10 as stated: with 8-bit unsigned mask values, the
single-voxel padded mask has 2 exposed x-faces, but the wrapped x-count is
`1 + 255 = 256`, not `(2^8 - 1) * 2 = 510`: only the falling (1 to 0)
adjacent pair wraps to `2^w - 1`; the rising pair still contributes 1. -/
theorem wrap_inflation_counterexample :
    surfXw 8 (pad single1) = 256 ∧ diffCountX (pad single1) = 2 ∧
      surfXw 8 (pad single1) ≠ (2 ^ 8 - 1) * diffCountX (pad single1) := by
  refine ⟨by decide, by decide, by decide⟩

/-- **C10 (amended).** If the mask elements are `w`-bit unsigned integers
(`w ≥ 1`), a falling (1 to 0) adjacent pair contributes `2^w - 1` while a
rising pair contributes 1; along every padded line these pair up, so each
per-axis count (and hence the weighted SurfaceArea) is inflated by the factor
`2^(w-1)` relative to the true face count — not by `2^w - 1`. -/
theorem wrap_surface_counts (w : ℕ) (hw : 1 ≤ w) (m : Mask3) :
    surfXw w (pad m) = 2 ^ (w - 1) * diffCountX (pad m) ∧
      surfYw w (pad m) = 2 ^ (w - 1) * diffCountY (pad m) ∧
        surfZw w (pad m) = 2 ^ (w - 1) * diffCountZ (pad m) :=
  ⟨surfXw_pad w hw m, surfYw_pad w hw m, surfZw_pad w hw m⟩

/-- Witness for the amended C10: 8-bit values on the single-voxel mask. -/
theorem wrap_surface_counts_witness :
    surfXw 8 (pad single1) = 2 ^ 7 * diffCountX (pad single1) ∧
      surfYw 8 (pad single1) = 2 ^ 7 * diffCountY (pad single1) ∧
        surfZw 8 (pad single1) = 2 ^ 7 * diffCountZ (pad single1) :=
  wrap_surface_counts 8 (by decide) single1

lemma rpow_eight_two_thirds : (8 : ℝ) ^ ((2 : ℝ) / 3) = 4 := by
  have h8 : (8 : ℝ) = 2 ^ (3 : ℝ) := by
    rw [show (3 : ℝ) = ((3 : ℕ) : ℝ) by norm_num, Real.rpow_natCast]
    norm_num
  rw [h8, ← Real.rpow_mul (by norm_num : (0 : ℝ) ≤ 2)]
  rw [show (3 : ℝ) * (2 / 3) = ((2 : ℕ) : ℝ) by norm_num, Real.rpow_natCast]
  norm_num

lemma sphericity_const_identity :
    Real.pi ^ ((1 : ℝ) / 3) * (6 : ℝ) ^ ((2 : ℝ) / 3) * (4 * Real.pi) ^ ((2 : ℝ) / 3) =
      4 * Real.pi * (3 : ℝ) ^ ((2 : ℝ) / 3) := by
  have hpi : (0 : ℝ) < Real.pi := Real.pi_pos
  have h4pi : (4 * Real.pi) ^ ((2 : ℝ) / 3) =
      (4 : ℝ) ^ ((2 : ℝ) / 3) * Real.pi ^ ((2 : ℝ) / 3) := Real.mul_rpow (by norm_num) hpi.le
  have hpi1 : Real.pi ^ ((1 : ℝ) / 3) * Real.pi ^ ((2 : ℝ) / 3) = Real.pi := by
    rw [← Real.rpow_add hpi]
    norm_num
  have h64 : (6 : ℝ) ^ ((2 : ℝ) / 3) * (4 : ℝ) ^ ((2 : ℝ) / 3) = (24 : ℝ) ^ ((2 : ℝ) / 3) := by
    rw [← Real.mul_rpow (by norm_num) (by norm_num)]
    norm_num
  have h24 : (24 : ℝ) ^ ((2 : ℝ) / 3) = 4 * (3 : ℝ) ^ ((2 : ℝ) / 3) := by
    rw [show (24 : ℝ) = 8 * 3 by norm_num,
      Real.mul_rpow (by norm_num) (by norm_num), rpow_eight_two_thirds]
  calc Real.pi ^ ((1 : ℝ) / 3) * (6 : ℝ) ^ ((2 : ℝ) / 3) * (4 * Real.pi) ^ ((2 : ℝ) / 3)
      = (Real.pi ^ ((1 : ℝ) / 3) * Real.pi ^ ((2 : ℝ) / 3)) *
          ((6 : ℝ) ^ ((2 : ℝ) / 3) * (4 : ℝ) ^ ((2 : ℝ) / 3)) := by rw [h4pi]; ring
    _ = Real.pi * (24 : ℝ) ^ ((2 : ℝ) / 3) := by rw [hpi1, h64]
    _ = Real.pi * (4 * (3 : ℝ) ^ ((2 : ℝ) / 3)) := by rw [h24]
    _ = 4 * Real.pi * (3 : ℝ) ^ ((2 : ℝ) / 3) := by ring

/-- **C3.** Whenever Volume and SurfaceArea are positive, the product of
`getSphericityFeatureValue` and `getSphericalDisproportionFeatureValue`
equals 1 (with Sphericity `pi^(1/3)*(6V)^(2/3)/A` and SphericalDisproportion
`A/(4*pi*R^2)`, `R = (3V/(4*pi))^(1/3)`). -/
theorem sphericity_mul_disproportion (r : RadiomicsShape)
    (hV : 0 < r.Volume) (hA : 0 < r.SurfaceArea) :
    r.getSphericityFeatureValue * r.getSphericalDisproportionFeatureValue = 1 := by
  unfold RadiomicsShape.getSphericityFeatureValue
    RadiomicsShape.getSphericalDisproportionFeatureValue
  have hpi : (0 : ℝ) < Real.pi := Real.pi_pos
  have hbase : (0 : ℝ) ≤ 3 * r.Volume / (4 * Real.pi) := by positivity
  have hR2 : ((3 * r.Volume / (4 * Real.pi)) ^ ((1 : ℝ) / 3)) ^ 2 =
      (3 * r.Volume / (4 * Real.pi)) ^ ((2 : ℝ) / 3) := by
    rw [← Real.rpow_natCast ((3 * r.Volume / (4 * Real.pi)) ^ ((1 : ℝ) / 3)) 2,
      ← Real.rpow_mul hbase]
    norm_num
  have h6V : (6 * r.Volume) ^ ((2 : ℝ) / 3) =
      (6 : ℝ) ^ ((2 : ℝ) / 3) * r.Volume ^ ((2 : ℝ) / 3) :=
    Real.mul_rpow (by norm_num) hV.le
  have h3V : (3 * r.Volume / (4 * Real.pi)) ^ ((2 : ℝ) / 3) =
      (3 : ℝ) ^ ((2 : ℝ) / 3) * r.Volume ^ ((2 : ℝ) / 3) / (4 * Real.pi) ^ ((2 : ℝ) / 3) := by
    rw [Real.div_rpow (by positivity) (by positivity), Real.mul_rpow (by norm_num) hV.le]
  rw [hR2, h6V, h3V]
  have hV23 : (0 : ℝ) < r.Volume ^ ((2 : ℝ) / 3) := Real.rpow_pos_of_pos hV _
  have h4pi23 : (0 : ℝ) < (4 * Real.pi) ^ ((2 : ℝ) / 3) :=
    Real.rpow_pos_of_pos (by positivity) _
  have h323 : (0 : ℝ) < (3 : ℝ) ^ ((2 : ℝ) / 3) := Real.rpow_pos_of_pos (by norm_num) _
  field_simp
  linear_combination (r.Volume ^ ((2 : ℝ) / 3) * r.SurfaceArea) * sphericity_const_identity

/-- Witness for C3 at the 3×3×3 unit-spacing cube (V = 27 > 0, A = 54 > 0). -/
theorem sphericity_mul_disproportion_witness :
    cubeShape.getSphericityFeatureValue * cubeShape.getSphericalDisproportionFeatureValue = 1 :=
  sphericity_mul_disproportion cubeShape
    (by rw [cubeShape_Volume]; norm_num)
    (by rw [cubeShape_SurfaceArea]; norm_num)

/-- The set of `(z, y)` lines (along x) that contain a true voxel. -/
def projKJ (m : Mask3) : Finset (ℕ × ℕ) := (trueVoxels m).image (fun p => (p.1, p.2.1))

/-- The set of `(z, x)` lines (along y) that contain a true voxel. -/
def projKI (m : Mask3) : Finset (ℕ × ℕ) := (trueVoxels m).image (fun p => (p.1, p.2.2))

/-- The set of `(y, x)` lines (along z) that contain a true voxel. -/
def projJI (m : Mask3) : Finset (ℕ × ℕ) := (trueVoxels m).image (fun p => p.2)

/-- The number of true voxels in the z-slice at `k`. -/
def sliceCard (m : Mask3) (k : ℕ) : ℕ :=
  ((trueVoxels m).filter (fun p => p.1 = k)).card

/-- The number of occupied `(z, y)` lines within the z-slice at `k`. -/
def projKJat (m : Mask3) (k : ℕ) : ℕ :=
  ((projKJ m).filter (fun q => q.1 = k)).card

/-- The number of occupied `(z, x)` lines within the z-slice at `k`. -/
def projKIat (m : Mask3) (k : ℕ) : ℕ :=
  ((projKI m).filter (fun q => q.1 = k)).card

lemma sliceCard_le_projJI (m : Mask3) (k : ℕ) : sliceCard m k ≤ (projJI m).card := by
  apply Finset.card_le_card_of_injOn (fun p => p.2)
  · intro p hp
    rw [Finset.mem_filter] at hp
    exact Finset.mem_image_of_mem _ hp.1
  · intro p hp q hq hpq
    simp only [Finset.coe_filter, Set.mem_setOf_eq] at hp hq
    obtain ⟨a, b, c⟩ := p
    obtain ⟨d, e, f⟩ := q
    simp only at hp hq hpq
    rw [hp.2, hq.2, hpq]

lemma sliceCard_le_mul (m : Mask3) (k : ℕ) :
    sliceCard m k ≤ projKJat m k * projKIat m k := by
  unfold sliceCard projKJat projKIat
  rw [← Finset.card_product]
  apply Finset.card_le_card_of_injOn (fun p => ((p.1, p.2.1), (p.1, p.2.2)))
  · intro p hp
    rw [Finset.mem_filter] at hp
    rw [Finset.mem_product, Finset.mem_filter, Finset.mem_filter]
    exact ⟨⟨Finset.mem_image_of_mem _ hp.1, hp.2⟩, Finset.mem_image_of_mem _ hp.1, hp.2⟩
  · intro p hp q hq hpq
    obtain ⟨a, b, c⟩ := p
    obtain ⟨d, e, f⟩ := q
    simp only [Prod.mk.injEq] at hpq
    simp only [Prod.mk.injEq]
    exact ⟨hpq.1.1, hpq.1.2, hpq.2.2⟩

lemma numTrue_eq_sum_sliceCard (m : Mask3) :
    numTrue m = ∑ k ∈ Finset.range m.D, sliceCard m k := by
  unfold numTrue sliceCard
  exact Finset.card_eq_sum_card_fiberwise
    (fun p hp => Finset.mem_range.mpr ((mem_trueVoxels_iff m p).mp hp).1)

lemma projKJ_card_eq_sum (m : Mask3) :
    (projKJ m).card = ∑ k ∈ Finset.range m.D, projKJat m k := by
  unfold projKJat
  refine Finset.card_eq_sum_card_fiberwise ?_
  intro q hq
  rw [projKJ, Finset.mem_image] at hq
  obtain ⟨p, hp, rfl⟩ := hq
  exact Finset.mem_range.mpr ((mem_trueVoxels_iff m p).mp hp).1

lemma projKI_card_eq_sum (m : Mask3) :
    (projKI m).card = ∑ k ∈ Finset.range m.D, projKIat m k := by
  unfold projKIat
  refine Finset.card_eq_sum_card_fiberwise ?_
  intro q hq
  rw [projKI, Finset.mem_image] at hq
  obtain ⟨p, hp, rfl⟩ := hq
  exact Finset.mem_range.mpr ((mem_trueVoxels_iff m p).mp hp).1

/-- Discrete Loomis–Whitney inequality in three dimensions: the square of the
voxel count is at most the product of the three occupied-line counts. -/
lemma loomis_whitney (m : Mask3) :
    (numTrue m) ^ 2 ≤ (projJI m).card * ((projKJ m).card * (projKI m).card) := by
  have step1 : ∀ k, ((sliceCard m k : ℝ)) ≤
      Real.sqrt ((projJI m).card) *
        (Real.sqrt (projKJat m k) * Real.sqrt (projKIat m k)) := by
    intro k
    have h1 := sliceCard_le_projJI m k
    have h2 := sliceCard_le_mul m k
    have hsq : ((sliceCard m k : ℝ)) ^ 2 ≤
        ((projJI m).card : ℝ) * ((projKJat m k : ℝ) * (projKIat m k : ℝ)) := by
      have hmul : sliceCard m k * sliceCard m k ≤
          (projJI m).card * (projKJat m k * projKIat m k) := Nat.mul_le_mul h1 h2
      have := (Nat.cast_le (α := ℝ)).mpr hmul
      push_cast at this
      nlinarith [this]
    calc (sliceCard m k : ℝ) = Real.sqrt (((sliceCard m k : ℝ)) ^ 2) :=
          (Real.sqrt_sq (by positivity)).symm
      _ ≤ Real.sqrt (((projJI m).card : ℝ) * ((projKJat m k : ℝ) * (projKIat m k : ℝ))) :=
          Real.sqrt_le_sqrt hsq
      _ = Real.sqrt ((projJI m).card) *
            (Real.sqrt (projKJat m k) * Real.sqrt (projKIat m k)) := by
          rw [Real.sqrt_mul (by positivity), Real.sqrt_mul (by positivity)]
  have step2 : (numTrue m : ℝ) ≤
      Real.sqrt ((projJI m).card) *
        (Real.sqrt ((projKJ m).card) * Real.sqrt ((projKI m).card)) := by
    have hN : (numTrue m : ℝ) = ∑ k ∈ Finset.range m.D, (sliceCard m k : ℝ) := by
      rw [numTrue_eq_sum_sliceCard]
      push_cast
      rfl
    rw [hN]
    calc ∑ k ∈ Finset.range m.D, (sliceCard m k : ℝ)
        ≤ ∑ k ∈ Finset.range m.D, Real.sqrt ((projJI m).card) *
            (Real.sqrt (projKJat m k) * Real.sqrt (projKIat m k)) :=
          Finset.sum_le_sum (fun k _ => step1 k)
      _ = Real.sqrt ((projJI m).card) *
            ∑ k ∈ Finset.range m.D, Real.sqrt (projKJat m k) * Real.sqrt (projKIat m k) := by
          rw [Finset.mul_sum]
      _ ≤ Real.sqrt ((projJI m).card) *
            (Real.sqrt (∑ k ∈ Finset.range m.D, (projKJat m k : ℝ)) *
              Real.sqrt (∑ k ∈ Finset.range m.D, (projKIat m k : ℝ))) := by
          refine mul_le_mul_of_nonneg_left ?_ (Real.sqrt_nonneg _)
          exact Real.sum_sqrt_mul_sqrt_le _ (fun k => by positivity) (fun k => by positivity)
      _ = Real.sqrt ((projJI m).card) *
            (Real.sqrt ((projKJ m).card) * Real.sqrt ((projKI m).card)) := by
          rw [projKJ_card_eq_sum, projKI_card_eq_sum]
          push_cast
          rfl
  have hfinal : ((numTrue m : ℝ)) ^ 2 ≤
      ((projJI m).card : ℝ) * (((projKJ m).card : ℝ) * ((projKI m).card : ℝ)) := by
    have hr := mul_self_le_mul_self (by positivity : (0 : ℝ) ≤ (numTrue m : ℝ)) step2
    calc ((numTrue m : ℝ)) ^ 2 = (numTrue m : ℝ) * (numTrue m : ℝ) := sq (numTrue m : ℝ) ▸ rfl
      _ ≤ (Real.sqrt ((projJI m).card) *
            (Real.sqrt ((projKJ m).card) * Real.sqrt ((projKI m).card))) *
          (Real.sqrt ((projJI m).card) *
            (Real.sqrt ((projKJ m).card) * Real.sqrt ((projKI m).card))) := hr
      _ = (Real.sqrt ((projJI m).card) * Real.sqrt ((projJI m).card)) *
            ((Real.sqrt ((projKJ m).card) * Real.sqrt ((projKJ m).card)) *
              (Real.sqrt ((projKI m).card) * Real.sqrt ((projKI m).card))) := by ring
      _ = ((projJI m).card : ℝ) * (((projKJ m).card : ℝ) * ((projKI m).card : ℝ)) := by
          rw [Real.mul_self_sqrt (by positivity), Real.mul_self_sqrt (by positivity),
            Real.mul_self_sqrt (by positivity)]
  exact_mod_cast hfinal

lemma exists_rise (v : ℕ → Bool) :
    ∀ t, v 0 = false → v t = true → ∃ i, i < t ∧ v i = false ∧ v (i + 1) = true := by
  intro t
  induction t with
  | zero => intro h0 ht; rw [h0] at ht; cases ht
  | succ t ih =>
    intro h0 ht
    cases hvt : v t with
    | true =>
      obtain ⟨i, hi, h⟩ := ih h0 hvt
      exact ⟨i, Nat.lt_succ_of_lt hi, h⟩
    | false => exact ⟨t, Nat.lt_succ_self t, hvt, ht⟩

lemma riseCount_pos (v : ℕ → Bool) (n t : ℕ) (h0 : v 0 = false) (htlt : t < n)
    (ht : v t = true) : 1 ≤ riseCount v n := by
  obtain ⟨i, hi, hif, hit⟩ := exists_rise v t h0 ht
  unfold riseCount
  have hmem : i ∈ Finset.range n := Finset.mem_range.mpr (lt_trans hi htlt)
  have hle := Finset.single_le_sum
    (f := fun i => if v i = false ∧ v (i + 1) = true then 1 else 0)
    (fun j _ => Nat.zero_le _) hmem
  refine le_trans ?_ hle
  show 1 ≤ if v i = false ∧ v (i + 1) = true then 1 else 0
  rw [if_pos (⟨hif, hit⟩ : v i = false ∧ v (i + 1) = true)]

lemma lineDiff_ge_two (v : ℕ → Bool) (n t : ℕ) (h0 : v 0 = false) (hn : v n = false)
    (htlt : t < n) (ht : v t = true) : 2 ≤ lineDiff v n := by
  rw [lineDiff_eq_rise_add_fall]
  have hr := riseCount_pos v n t h0 htlt ht
  have he := rise_eq_fall v n h0 hn
  omega

lemma card_as_box_sum {P box : Finset (ℕ × ℕ)} (hsub : P ⊆ box) :
    P.card = ∑ q ∈ box, (if q ∈ P then 1 else 0) := by
  rw [Finset.sum_ite_mem, Finset.inter_eq_right.mpr hsub, Finset.card_eq_sum_ones]

lemma two_mul_projKJ_le_diffCountX (m : Mask3) :
    2 * (projKJ (pad m)).card ≤ diffCountX (pad m) := by
  have hsub : projKJ (pad m) ⊆ Finset.range (pad m).D ×ˢ Finset.range (pad m).H := by
    intro q hq
    rw [projKJ, Finset.mem_image] at hq
    obtain ⟨p, hp, rfl⟩ := hq
    have h := (mem_trueVoxels_iff _ p).mp hp
    exact Finset.mem_product.mpr ⟨Finset.mem_range.mpr h.1, Finset.mem_range.mpr h.2.1⟩
  rw [card_as_box_sum hsub, Finset.mul_sum, Finset.sum_product]
  unfold diffCountX
  refine Finset.sum_le_sum ?_
  intro k _
  refine Finset.sum_le_sum ?_
  intro j _
  by_cases hmem : (k, j) ∈ projKJ (pad m)
  · rw [if_pos hmem, mul_one]
    rw [projKJ, Finset.mem_image] at hmem
    obtain ⟨p, hp, hpq⟩ := hmem
    obtain ⟨a, b, c⟩ := p
    simp only [Prod.mk.injEq] at hpq
    obtain ⟨h1, h2⟩ := hpq
    rw [h1, h2] at hp
    have hval : (pad m).val k j c = true := ((mem_trueVoxels_iff (pad m) (k, j, c)).mp hp).2.2.2
    have hc : c ≤ m.W := ((mem_trueVoxels_pad_iff m (k, j, c)).mp hp).2.2.2.2.2.1
    refine lineDiff_ge_two _ _ c (pad_val_x0 m k j) (pad_val_xW m k j) ?_ hval
    show c < m.W + 1
    omega
  · rw [if_neg hmem, mul_zero]
    exact Nat.zero_le _

lemma two_mul_projKI_le_diffCountY (m : Mask3) :
    2 * (projKI (pad m)).card ≤ diffCountY (pad m) := by
  have hsub : projKI (pad m) ⊆ Finset.range (pad m).D ×ˢ Finset.range (pad m).W := by
    intro q hq
    rw [projKI, Finset.mem_image] at hq
    obtain ⟨p, hp, rfl⟩ := hq
    have h := (mem_trueVoxels_iff _ p).mp hp
    exact Finset.mem_product.mpr ⟨Finset.mem_range.mpr h.1, Finset.mem_range.mpr h.2.2.1⟩
  rw [card_as_box_sum hsub, Finset.mul_sum, Finset.sum_product]
  unfold diffCountY
  refine Finset.sum_le_sum ?_
  intro k _
  refine Finset.sum_le_sum ?_
  intro i _
  by_cases hmem : (k, i) ∈ projKI (pad m)
  · rw [if_pos hmem, mul_one]
    rw [projKI, Finset.mem_image] at hmem
    obtain ⟨p, hp, hpq⟩ := hmem
    obtain ⟨a, b, c⟩ := p
    simp only [Prod.mk.injEq] at hpq
    obtain ⟨h1, h2⟩ := hpq
    rw [h1, h2] at hp
    have hval : (pad m).val k b i = true := ((mem_trueVoxels_iff (pad m) (k, b, i)).mp hp).2.2.2
    have hc : b ≤ m.H := ((mem_trueVoxels_pad_iff m (k, b, i)).mp hp).2.2.2.1
    refine lineDiff_ge_two _ _ b (pad_val_y0 m k i) (pad_val_yH m k i) ?_ hval
    show b < m.H + 1
    omega
  · rw [if_neg hmem, mul_zero]
    exact Nat.zero_le _

lemma two_mul_projJI_le_diffCountZ (m : Mask3) :
    2 * (projJI (pad m)).card ≤ diffCountZ (pad m) := by
  have hsub : projJI (pad m) ⊆ Finset.range (pad m).H ×ˢ Finset.range (pad m).W := by
    intro q hq
    rw [projJI, Finset.mem_image] at hq
    obtain ⟨p, hp, rfl⟩ := hq
    have h := (mem_trueVoxels_iff _ p).mp hp
    exact Finset.mem_product.mpr ⟨Finset.mem_range.mpr h.2.1, Finset.mem_range.mpr h.2.2.1⟩
  rw [card_as_box_sum hsub, Finset.mul_sum, Finset.sum_product]
  unfold diffCountZ
  refine Finset.sum_le_sum ?_
  intro j _
  refine Finset.sum_le_sum ?_
  intro i _
  by_cases hmem : (j, i) ∈ projJI (pad m)
  · rw [if_pos hmem, mul_one]
    rw [projJI, Finset.mem_image] at hmem
    obtain ⟨p, hp, hpq⟩ := hmem
    obtain ⟨a, b, c⟩ := p
    simp only [Prod.mk.injEq] at hpq
    obtain ⟨h1, h2⟩ := hpq
    rw [h1, h2] at hp
    have hval : (pad m).val a j i = true := ((mem_trueVoxels_iff (pad m) (a, j, i)).mp hp).2.2.2
    have hc : a ≤ m.D := ((mem_trueVoxels_pad_iff m (a, j, i)).mp hp).2.1
    refine lineDiff_ge_two _ _ a (pad_val_z0 m j i) (pad_val_zD m j i) ?_ hval
    show a < m.D + 1
    omega
  · rw [if_neg hmem, mul_zero]
    exact Nat.zero_le _

lemma trueVoxels_pad_nonempty (m : Mask3) (hne : 0 < numTrue m) :
    (trueVoxels (pad m)).Nonempty := by
  apply Finset.card_pos.mp
  show 0 < numTrue (pad m)
  rw [numTrue_pad]
  exact hne

lemma amgm3 (a b c : ℝ) (ha : 0 ≤ a) (hb : 0 ≤ b) (hc : 0 ≤ c) :
    a * b * c ≤ ((a + b + c) / 3) ^ 3 := by
  have h := Real.geom_mean_le_arith_mean3_weighted
    (by norm_num : (0:ℝ) ≤ 1/3) (by norm_num : (0:ℝ) ≤ 1/3) (by norm_num : (0:ℝ) ≤ 1/3)
    ha hb hc (by norm_num)
  have hcube : (a ^ ((1:ℝ)/3) * b ^ ((1:ℝ)/3) * c ^ ((1:ℝ)/3)) ^ 3 = a * b * c := by
    rw [mul_pow, mul_pow]
    rw [← Real.rpow_natCast (a ^ ((1:ℝ)/3)) 3, ← Real.rpow_mul ha]
    rw [← Real.rpow_natCast (b ^ ((1:ℝ)/3)) 3, ← Real.rpow_mul hb]
    rw [← Real.rpow_natCast (c ^ ((1:ℝ)/3)) 3, ← Real.rpow_mul hc]
    norm_num
  calc a * b * c = (a ^ ((1:ℝ)/3) * b ^ ((1:ℝ)/3) * c ^ ((1:ℝ)/3)) ^ 3 := hcube.symm
    _ ≤ ((a + b + c) / 3) ^ 3 := by
        refine pow_le_pow_left (by positivity) ?_ 3
        calc a ^ ((1:ℝ)/3) * b ^ ((1:ℝ)/3) * c ^ ((1:ℝ)/3)
            ≤ 1/3 * a + 1/3 * b + 1/3 * c := h
          _ = (a + b + c) / 3 := by ring

/-- **C4.** For every non-empty binary ROI mask with positive spacing,
`getCompactness2FeatureValue = 36*pi*V^2/A^3` lies in the interval `(0, 1]`
(the voxelized shape never actually attains the spherical limit 1; the proof
bounds the value by `pi/6 < 1` via a discrete Loomis–Whitney inequality). -/
theorem compactness2_unit_interval (inputMask : Mask3) (s : Spacing)
    (hx : 0 < s.x) (hy : 0 < s.y) (hz : 0 < s.z) (hne : 0 < numTrue inputMask) :
    0 < (RadiomicsShape.ofMask inputMask s).getCompactness2FeatureValue ∧
      (RadiomicsShape.ofMask inputMask s).getCompactness2FeatureValue ≤ 1 := by
  set r := RadiomicsShape.ofMask inputMask s with hr
  set P := pad inputMask with hP
  set N := numTrue P with hNdef
  set Lx := (projKJ P).card with hLxdef
  set Ly := (projKI P).card with hLydef
  set Lz := (projJI P).card with hLzdef
  have hVdef : r.Volume = (N : ℝ) * (s.x * s.y * s.z) := rfl
  have hAdef : r.SurfaceArea = (surfX P : ℝ) * (s.y * s.z) + (surfY P : ℝ) * (s.x * s.z) +
      (surfZ P : ℝ) * (s.x * s.y) := rfl
  have hsx : 2 * Lx ≤ surfX P := by
    rw [surfX_eq_diffCountX]
    exact two_mul_projKJ_le_diffCountX inputMask
  have hsy : 2 * Ly ≤ surfY P := by
    rw [surfY_eq_diffCountY]
    exact two_mul_projKI_le_diffCountY inputMask
  have hsz : 2 * Lz ≤ surfZ P := by
    rw [surfZ_eq_diffCountZ]
    exact two_mul_projJI_le_diffCountZ inputMask
  set a := (Lx : ℝ) * (s.y * s.z) with hadef
  set b := (Ly : ℝ) * (s.x * s.z) with hbdef
  set c := (Lz : ℝ) * (s.x * s.y) with hcdef
  have ha0 : 0 ≤ a := by positivity
  have hb0 : 0 ≤ b := by positivity
  have hc0 : 0 ≤ c := by positivity
  have hA2 : 2 * (a + b + c) ≤ r.SurfaceArea := by
    rw [hAdef]
    have h1 : 2 * a ≤ (surfX P : ℝ) * (s.y * s.z) := by
      have hcast : 2 * (Lx : ℝ) ≤ (surfX P : ℝ) := by exact_mod_cast hsx
      calc 2 * a = 2 * (Lx : ℝ) * (s.y * s.z) := by rw [hadef]; ring
        _ ≤ (surfX P : ℝ) * (s.y * s.z) :=
            mul_le_mul_of_nonneg_right hcast (by positivity)
    have h2 : 2 * b ≤ (surfY P : ℝ) * (s.x * s.z) := by
      have hcast : 2 * (Ly : ℝ) ≤ (surfY P : ℝ) := by exact_mod_cast hsy
      calc 2 * b = 2 * (Ly : ℝ) * (s.x * s.z) := by rw [hbdef]; ring
        _ ≤ (surfY P : ℝ) * (s.x * s.z) :=
            mul_le_mul_of_nonneg_right hcast (by positivity)
    have h3 : 2 * c ≤ (surfZ P : ℝ) * (s.x * s.y) := by
      have hcast : 2 * (Lz : ℝ) ≤ (surfZ P : ℝ) := by exact_mod_cast hsz
      calc 2 * c = 2 * (Lz : ℝ) * (s.x * s.y) := by rw [hcdef]; ring
        _ ≤ (surfZ P : ℝ) * (s.x * s.y) :=
            mul_le_mul_of_nonneg_right hcast (by positivity)
    linarith
  have hLW : (N : ℝ) ^ 2 ≤ (Lz : ℝ) * ((Lx : ℝ) * (Ly : ℝ)) := by
    exact_mod_cast loomis_whitney P
  have hV2 : r.Volume ^ 2 ≤ a * b * c := by
    rw [hVdef]
    calc ((N : ℝ) * (s.x * s.y * s.z)) ^ 2 = (N : ℝ) ^ 2 * (s.x * s.y * s.z) ^ 2 := by ring
      _ ≤ (Lz : ℝ) * ((Lx : ℝ) * (Ly : ℝ)) * (s.x * s.y * s.z) ^ 2 :=
          mul_le_mul_of_nonneg_right hLW (by positivity)
      _ = a * b * c := by rw [hadef, hbdef, hcdef]; ring
  have habc : a * b * c ≤ (r.SurfaceArea / 6) ^ 3 := by
    refine le_trans (amgm3 a b c ha0 hb0 hc0) (pow_le_pow_left (by positivity) ?_ 3)
    linarith
  have hLx1 : 1 ≤ Lx :=
    Finset.card_pos.mpr ((trueVoxels_pad_nonempty inputMask hne).image _)
  have hapos : 0 < a := by
    rw [hadef]
    have : (0 : ℝ) < (Lx : ℝ) := by exact_mod_cast hLx1
    positivity
  have hApos : 0 < r.SurfaceArea := by linarith
  have hNpos : 0 < N := by
    rw [hNdef, hP, numTrue_pad]
    exact hne
  have hVpos : 0 < r.Volume := by
    rw [hVdef]
    have : (0 : ℝ) < (N : ℝ) := by exact_mod_cast hNpos
    positivity
  have hC2 : r.getCompactness2FeatureValue = 36 * Real.pi * r.Volume ^ 2 / r.SurfaceArea ^ 3 :=
    rfl
  constructor
  · rw [hC2]
    exact div_pos (mul_pos (by positivity) (pow_pos hVpos 2)) (pow_pos hApos 3)
  · rw [hC2, div_le_one (pow_pos hApos 3)]
    have hpi : Real.pi < 3.15 := Real.pi_lt_315
    have hpi0 : 0 < Real.pi := Real.pi_pos
    calc 36 * Real.pi * r.Volume ^ 2 ≤ 36 * Real.pi * (a * b * c) :=
          mul_le_mul_of_nonneg_left hV2 (by positivity)
      _ ≤ 36 * Real.pi * ((r.SurfaceArea / 6) ^ 3) :=
          mul_le_mul_of_nonneg_left habc (by positivity)
      _ = Real.pi / 6 * r.SurfaceArea ^ 3 := by ring
      _ ≤ 1 * r.SurfaceArea ^ 3 :=
          mul_le_mul_of_nonneg_right (by linarith) (by positivity)
      _ = r.SurfaceArea ^ 3 := one_mul _

/-- Witness for C4 at the 3×3×3 unit-spacing cube. -/
theorem compactness2_unit_interval_witness :
    0 < (RadiomicsShape.ofMask cube3 ⟨1, 1, 1⟩).getCompactness2FeatureValue ∧
      (RadiomicsShape.ofMask cube3 ⟨1, 1, 1⟩).getCompactness2FeatureValue ≤ 1 :=
  compactness2_unit_interval cube3 ⟨1, 1, 1⟩ (by norm_num) (by norm_num) (by norm_num)
    (by decide)

open scoped Classical

/-- An IEEE-754-style value as produced by numpy double arithmetic: a finite
real (rounding is not modelled), a signed infinity, or NaN.  Used to model the
division-by-zero behaviour of the descriptors on a degenerate ROI. -/
inductive RFloat where
  | fin : ℝ → RFloat
  | inf : RFloat
  | ninf : RFloat
  | nan : RFloat

/-- Whether a float value is finite (neither an infinity nor NaN). -/
def RFloat.isFinite : RFloat → Bool
  | fin _ => true
  | _ => false

/-- IEEE multiplication (finite values exact; sign of zero not modelled). -/
noncomputable def RFloat.mul : RFloat → RFloat → RFloat
  | nan, _ => nan
  | _, nan => nan
  | fin a, fin b => fin (a * b)
  | inf, fin a => if 0 < a then inf else if a < 0 then ninf else nan
  | fin a, inf => if 0 < a then inf else if a < 0 then ninf else nan
  | ninf, fin a => if 0 < a then ninf else if a < 0 then inf else nan
  | fin a, ninf => if 0 < a then ninf else if a < 0 then inf else nan
  | inf, inf => inf
  | inf, ninf => ninf
  | ninf, inf => ninf
  | ninf, ninf => inf

/-- IEEE division: `x/0` is NaN for `x = 0` and a signed infinity otherwise
(positive zero assumed; numpy emits a RuntimeWarning but no exception). -/
noncomputable def RFloat.div : RFloat → RFloat → RFloat
  | nan, _ => nan
  | _, nan => nan
  | fin a, fin b =>
    if b = 0 then (if a = 0 then nan else if 0 < a then inf else ninf) else fin (a / b)
  | inf, fin b => if 0 ≤ b then inf else ninf
  | ninf, fin b => if 0 ≤ b then ninf else inf
  | fin _, inf => fin 0
  | fin _, ninf => fin 0
  | _, _ => nan

/-- IEEE power for the exponents used by the descriptors (finite nonnegative
bases, where `Real.rpow` agrees with IEEE `pow`, including `0^p = 0` for
`p > 0`); remaining combinations are not exercised by the formulas. -/
noncomputable def RFloat.rpow : RFloat → RFloat → RFloat
  | nan, _ => nan
  | _, nan => nan
  | fin a, fin p => fin (a ^ p)
  | inf, fin p => if 0 < p then inf else if p = 0 then fin 1 else fin 0
  | _, _ => nan

/-- IEEE square root: NaN on negative finite input. -/
noncomputable def RFloat.sqrtF : RFloat → RFloat
  | fin a => if a < 0 then nan else fin (Real.sqrt a)
  | inf => inf
  | _ => nan

/-- `self.Volume` as the (finite) float value held by the object. -/
noncomputable def RadiomicsShape.VolumeFloat (r : RadiomicsShape) : RFloat :=
  RFloat.fin r.Volume

/-- `self.SurfaceArea` as the (finite) float value held by the object. -/
noncomputable def RadiomicsShape.SurfaceAreaFloat (r : RadiomicsShape) : RFloat :=
  RFloat.fin r.SurfaceArea

/-- `getSurfaceVolumeRatioFeatureValue` in float semantics:
`SurfaceArea / Volume`. -/
noncomputable def RadiomicsShape.getSurfaceVolumeRatioFloat (r : RadiomicsShape) : RFloat :=
  RFloat.div r.SurfaceAreaFloat r.VolumeFloat

/-- `getCompactness1FeatureValue` in float semantics:
`Volume / (SurfaceArea**(2/3) * sqrt(pi))`. -/
noncomputable def RadiomicsShape.getCompactness1Float (r : RadiomicsShape) : RFloat :=
  RFloat.div r.VolumeFloat
    (RFloat.mul (RFloat.rpow r.SurfaceAreaFloat (RFloat.fin ((2 : ℝ) / 3)))
      (RFloat.sqrtF (RFloat.fin Real.pi)))

/-- `getCompactness2FeatureValue` in float semantics:
`(36*pi) * Volume**2 / SurfaceArea**3`. -/
noncomputable def RadiomicsShape.getCompactness2Float (r : RadiomicsShape) : RFloat :=
  RFloat.div
    (RFloat.mul (RFloat.fin (36 * Real.pi)) (RFloat.rpow r.VolumeFloat (RFloat.fin 2)))
    (RFloat.rpow r.SurfaceAreaFloat (RFloat.fin 3))

/-- `getSphericalDisproportionFeatureValue` in float semantics:
`R = (3*Volume/(4*pi))**(1/3); SurfaceArea / (4*pi*R**2)`. -/
noncomputable def RadiomicsShape.getSphericalDisproportionFloat (r : RadiomicsShape) : RFloat :=
  RFloat.div r.SurfaceAreaFloat
    (RFloat.mul (RFloat.fin (4 * Real.pi))
      (RFloat.rpow
        (RFloat.rpow
          (RFloat.div (RFloat.mul (RFloat.fin 3) r.VolumeFloat) (RFloat.fin (4 * Real.pi)))
          (RFloat.fin ((1 : ℝ) / 3)))
        (RFloat.fin 2)))

/-- `getSphericityFeatureValue` in float semantics:
`(pi**(1/3) * (6*Volume)**(2/3)) / SurfaceArea`. -/
noncomputable def RadiomicsShape.getSphericityFloat (r : RadiomicsShape) : RFloat :=
  RFloat.div
    (RFloat.mul (RFloat.rpow (RFloat.fin Real.pi) (RFloat.fin ((1 : ℝ) / 3)))
      (RFloat.rpow (RFloat.mul (RFloat.fin 6) r.VolumeFloat) (RFloat.fin ((2 : ℝ) / 3))))
    r.SurfaceAreaFloat

lemma numTrue_zero_vals {m : Mask3} (h : numTrue m = 0) :
    ∀ k < m.D, ∀ j < m.H, ∀ i < m.W, m.val k j i = false := by
  intro k hk j hj i hi
  by_contra hv
  rw [Bool.not_eq_false] at hv
  have hmem : (k, j, i) ∈ trueVoxels m := (mem_trueVoxels_iff m (k, j, i)).mpr ⟨hk, hj, hi, hv⟩
  have : 0 < numTrue m := Finset.card_pos.mpr ⟨_, hmem⟩
  omega

lemma surfX_of_empty {m : Mask3} (h : numTrue m = 0) : surfX m = 0 := by
  unfold surfX
  refine Finset.sum_eq_zero ?_
  intro k hk
  refine Finset.sum_eq_zero ?_
  intro j hj
  refine Finset.sum_eq_zero ?_
  intro i hi
  rw [Finset.mem_range] at hk hj hi
  rw [numTrue_zero_vals h k hk j hj (i + 1) (by omega), numTrue_zero_vals h k hk j hj i (by omega)]
  rfl

lemma surfY_of_empty {m : Mask3} (h : numTrue m = 0) : surfY m = 0 := by
  unfold surfY
  refine Finset.sum_eq_zero ?_
  intro k hk
  refine Finset.sum_eq_zero ?_
  intro j hj
  refine Finset.sum_eq_zero ?_
  intro i hi
  rw [Finset.mem_range] at hk hj hi
  rw [numTrue_zero_vals h k hk (j + 1) (by omega) i hi, numTrue_zero_vals h k hk j (by omega) i hi]
  rfl

lemma surfZ_of_empty {m : Mask3} (h : numTrue m = 0) : surfZ m = 0 := by
  unfold surfZ
  refine Finset.sum_eq_zero ?_
  intro k hk
  refine Finset.sum_eq_zero ?_
  intro j hj
  refine Finset.sum_eq_zero ?_
  intro i hi
  rw [Finset.mem_range] at hk hj hi
  rw [numTrue_zero_vals h (k + 1) (by omega) j hj i hi, numTrue_zero_vals h k (by omega) j hj i hi]
  rfl

lemma volume_of_empty {r : RadiomicsShape} (h : numTrue r.maskArray = 0) : r.Volume = 0 := by
  show (numTrue r.maskArray : ℝ) * r.cubicMMPerVoxel = 0
  rw [h]
  norm_num

lemma surfaceArea_of_empty {r : RadiomicsShape} (h : numTrue r.maskArray = 0) :
    r.SurfaceArea = 0 := by
  show (surfX r.maskArray : ℝ) * _ + (surfY r.maskArray : ℝ) * _ +
      (surfZ r.maskArray : ℝ) * _ = 0
  rw [surfX_of_empty h, surfY_of_empty h, surfZ_of_empty h]
  norm_num

lemma rfloat_rpow_zero {p : ℝ} (hp : p ≠ 0) :
    RFloat.rpow (RFloat.fin 0) (RFloat.fin p) = RFloat.fin 0 := by
  simp [RFloat.rpow, Real.zero_rpow hp]

lemma rfloat_mul_zero_right (x : ℝ) :
    RFloat.mul (RFloat.fin x) (RFloat.fin 0) = RFloat.fin 0 := by
  simp [RFloat.mul]

lemma rfloat_mul_zero_left (x : ℝ) :
    RFloat.mul (RFloat.fin 0) (RFloat.fin x) = RFloat.fin 0 := by
  simp [RFloat.mul]

lemma rfloat_div_zero_zero : RFloat.div (RFloat.fin 0) (RFloat.fin 0) = RFloat.nan := by
  simp [RFloat.div]

lemma rfloat_div_zero_ne {x : ℝ} (hx : x ≠ 0) :
    RFloat.div (RFloat.fin 0) (RFloat.fin x) = RFloat.fin 0 := by
  simp [RFloat.div, hx]

/-- **C7.** For a degenerate ROI with zero true voxels (`Volume = 0`), the
surface/volume ratio, Compactness1, Compactness2, SphericalDisproportion and
Sphericity all evaluate (in IEEE float semantics) to a non-finite value
(here NaN, via 0/0), and — the arithmetic being total — no exception is
raised. -/
theorem zero_volume_descriptors_nonfinite (r : RadiomicsShape)
    (h : numTrue r.maskArray = 0) :
    r.getSurfaceVolumeRatioFloat.isFinite = false ∧
      r.getCompactness1Float.isFinite = false ∧
        r.getCompactness2Float.isFinite = false ∧
          r.getSphericalDisproportionFloat.isFinite = false ∧
            r.getSphericityFloat.isFinite = false := by
  have hV : r.Volume = 0 := volume_of_empty h
  have hA : r.SurfaceArea = 0 := surfaceArea_of_empty h
  have hVf : r.VolumeFloat = RFloat.fin 0 := by
    rw [RadiomicsShape.VolumeFloat, hV]
  have hAf : r.SurfaceAreaFloat = RFloat.fin 0 := by
    rw [RadiomicsShape.SurfaceAreaFloat, hA]
  have hpi : Real.pi ≠ 0 := ne_of_gt Real.pi_pos
  have h4pi : (4 : ℝ) * Real.pi ≠ 0 := by positivity
  refine ⟨?_, ?_, ?_, ?_, ?_⟩
  · rw [RadiomicsShape.getSurfaceVolumeRatioFloat, hVf, hAf, rfloat_div_zero_zero]
    rfl
  · rw [RadiomicsShape.getCompactness1Float, hVf, hAf,
      rfloat_rpow_zero (by norm_num : ((2 : ℝ) / 3) ≠ 0)]
    have hs : RFloat.sqrtF (RFloat.fin Real.pi) = RFloat.fin (Real.sqrt Real.pi) := by
      simp [RFloat.sqrtF, not_lt.mpr Real.pi_pos.le]
    rw [hs, rfloat_mul_zero_left, rfloat_div_zero_zero]
    rfl
  · rw [RadiomicsShape.getCompactness2Float, hVf, hAf,
      rfloat_rpow_zero (by norm_num : (2 : ℝ) ≠ 0),
      rfloat_rpow_zero (by norm_num : (3 : ℝ) ≠ 0),
      rfloat_mul_zero_right, rfloat_div_zero_zero]
    rfl
  · rw [RadiomicsShape.getSphericalDisproportionFloat, hVf, hAf, rfloat_mul_zero_right,
      rfloat_div_zero_ne h4pi,
      rfloat_rpow_zero (by norm_num : ((1 : ℝ) / 3) ≠ 0),
      rfloat_rpow_zero (by norm_num : (2 : ℝ) ≠ 0),
      rfloat_mul_zero_right, rfloat_div_zero_zero]
    rfl
  · have hppow : RFloat.rpow (RFloat.fin Real.pi) (RFloat.fin ((1 : ℝ) / 3)) =
        RFloat.fin (Real.pi ^ ((1 : ℝ) / 3)) := by
      simp [RFloat.rpow]
    rw [RadiomicsShape.getSphericityFloat, hVf, hAf, rfloat_mul_zero_right,
      rfloat_rpow_zero (by norm_num : ((2 : ℝ) / 3) ≠ 0), hppow,
      rfloat_mul_zero_right, rfloat_div_zero_zero]
    rfl

/-- The empty 1×1×1 mask (zero true voxels). -/
def emptyMask : Mask3 := ⟨1, 1, 1, fun _ _ _ => false⟩

/-- Witness for C7 at the concrete empty-ROI object. -/
theorem zero_volume_descriptors_nonfinite_witness :
    (RadiomicsShape.ofMask emptyMask ⟨1, 1, 1⟩).getSurfaceVolumeRatioFloat.isFinite = false ∧
      (RadiomicsShape.ofMask emptyMask ⟨1, 1, 1⟩).getCompactness1Float.isFinite = false ∧
        (RadiomicsShape.ofMask emptyMask ⟨1, 1, 1⟩).getCompactness2Float.isFinite = false ∧
          (RadiomicsShape.ofMask emptyMask
            ⟨1, 1, 1⟩).getSphericalDisproportionFloat.isFinite = false ∧
            (RadiomicsShape.ofMask emptyMask ⟨1, 1, 1⟩).getSphericityFloat.isFinite = false :=
  zero_volume_descriptors_nonfinite (RadiomicsShape.ofMask emptyMask ⟨1, 1, 1⟩) (by decide)
